import Mathlib

/-!
# Verification of the alpha-sql connection pool subsystem

This file embeds, in Lean, the pool subsystem of the alpha-sql repository:
the multi-version idle stack (`mvStack`), the registry helper
`removeFromConnections`, the pool configuration defaulting
(`Config.ValidateAndDefault`), and the pool operations
(`createConnection`, `acquireConnection`, `release`, `releaseUnused`,
`acquireAllIdleConnections`, `destroyAcquiredConnection`, `close`) as an
atomic-operation transition system.  Connection records are identified by
natural numbers (pointer identity in Go); machine-level details that no
claim depends on (wall-clock time values, the driver handle) are elided or
passed as oracle parameters: driver constructor success, hook results and
context-cancellation outcomes are free booleans, and the weighted
semaphore is modelled by its outstanding-token count.

The file is organised as: all definitions first, then all theorems.
-/

namespace AlphaSql

/-! ## Definitions: multi-version idle stack

The Go `mvStack` holds two pointers `old` and `new` to stacks which may
alias each other (they do in the freshly constructed stack).  We model the
aliasing explicitly: `single s` is the state where `old == new` point to
the one stack with contents `s` (head = top), `dual o n` is the state
where they are distinct stacks. -/

inductive MVStack where
  | single (s : List Nat)
  | dual (o n : List Nat)
deriving DecidableEq, Repr

/-- `newMVStack`: one fresh stack, `old` and `new` aliased to it. -/
def newMVStack : MVStack := .single []

/-- `pop`: if `old` is empty and distinct from `new`, assign `old = new`
(after which they alias); then pop from `old`, returning `nil, false` if
still empty.  Returns the popped element (if any) and the mutated stack. -/
def mvPop : MVStack → Option Nat × MVStack
  | .single [] => (none, .single [])
  | .single (c :: s) => (some c, .single s)
  | .dual [] [] => (none, .single [])
  | .dual [] (c :: n) => (some c, .single n)
  | .dual (c :: o) n => (some c, .dual o n)

/-- `push`: always onto the `new` stack (which is `old` itself when aliased). -/
def mvPush (c : Nat) : MVStack → MVStack
  | .single s => .single (c :: s)
  | .dual o n => .dual o (c :: n)

/-- `bump`: if `old == new`, point `new` at a fresh empty stack.  Otherwise
the code pops every element of `old` into an array slot indexed by
`s.old.Length()-1` evaluated *after* the pop; on the final element the
remaining length is 0 and the index is -1, which panics at runtime.  We
model the panic as `none`.  When `old` is empty (and distinct from `new`)
the two loops are no-ops and the two stacks are swapped. -/
def mvBump : MVStack → Option MVStack
  | .single s => some (.dual s [])
  | .dual [] n => some (.dual n [])
  | .dual (_ :: _) _ => none

/-- `length`: `old.Length()`, plus `new.Length()` when distinct. -/
def mvLength : MVStack → Nat
  | .single s => s.length
  | .dual o n => o.length + n.length

/-- The logical contents of the stack, in pop order. -/
def stackList : MVStack → List Nat
  | .single s => s
  | .dual o n => o ++ n

/-! ## Definitions: registry helper `removeFromConnections`

The Go code scans the slice for the first element equal (by pointer) to
`c`, overwrites that slot with the last element, nils the last slot and
truncates by one.  When `c` is absent the slice is unchanged. -/

def removeFromConnections (v : List Nat) (c : Nat) : List Nat :=
  match v.findIdx? (fun e => e = c) with
  | none => v
  | some i => (v.set i (v.getLastD 0)).dropLast

/-! ## Definitions: pool configuration

`Config.ValidateAndDefault` from the pool package, together with
`ConnectionConfig.ValidateAndDefault` which it calls.  Hook fields are
modelled by their nil-ness (`none` = nil; defaulting installs `some ()`);
durations and counts are `Int` (Go `time.Duration` / `int32`). -/

inductive ConfigErr where
  | missingConnectionConfig
  | missingDriverName
  | missingURL
deriving DecidableEq, Repr

structure ConnectionConfig where
  driverName : String
  url : String
deriving DecidableEq, Repr

/-- `ConnectionConfig.ValidateAndDefault`: errors when `DriverName` or
`URL` is empty; sets no defaults. -/
def ConnectionConfig.validateAndDefault (c : ConnectionConfig) : Option ConfigErr :=
  if c.driverName = "" then some .missingDriverName
  else if c.url = "" then some .missingURL
  else none

structure Config where
  connectionConfig : Option ConnectionConfig
  beforeConnect : Option Unit
  afterConnect : Option Unit
  beforeAcquire : Option Unit
  afterRelease : Option Unit
  beforeClose : Option Unit
  maxConnectionLifetime : Int
  maxConnectionLifetimeJitter : Int
  maxConnectionIdleTime : Int
  maxConnections : Int
  minConnections : Int
  healthCheckPeriod : Int
deriving DecidableEq, Repr

/-- `if c.Hook == nil { c.Hook = defaultHook }`. -/
def defaultHook : Option Unit → Option Unit
  | none => some ()
  | some x => some x

/-- `time.Hour` in nanoseconds. -/
def timeHour : Int := 3600000000000

/-- `time.Minute * 30` in nanoseconds. -/
def timeMinute30 : Int := 1800000000000

/-- `time.Minute` in nanoseconds. -/
def timeMinute : Int := 60000000000

/-- `Config.ValidateAndDefault`: validates the connection config and
defaults the hooks, durations and counts.  The Go method mutates the
receiver and returns an error; we return the mutated config on success. -/
def Config.validateAndDefault (c : Config) : Except ConfigErr Config :=
  match c.connectionConfig with
  | none => .error .missingConnectionConfig
  | some cc =>
    match cc.validateAndDefault with
    | some e => .error e
    | none =>
      .ok { c with
        beforeConnect := defaultHook c.beforeConnect
        afterConnect := defaultHook c.afterConnect
        beforeAcquire := defaultHook c.beforeAcquire
        afterRelease := defaultHook c.afterRelease
        beforeClose := defaultHook c.beforeClose
        maxConnectionLifetime :=
          if c.maxConnectionLifetime = 0 then timeHour else c.maxConnectionLifetime
        maxConnectionIdleTime :=
          if c.maxConnectionIdleTime = 0 then timeMinute30 else c.maxConnectionIdleTime
        maxConnections :=
          if c.maxConnections ≤ 0 then 4 else c.maxConnections
        minConnections :=
          if c.minConnections ≤ 0 then 0 else c.minConnections
        healthCheckPeriod :=
          if c.healthCheckPeriod = 0 then timeMinute else c.healthCheckPeriod }

/-! ## Definitions: pool state and operations

The pool's shared state under its mutex, as mutated by the atomic pool
operations.  `tokens` is the number of outstanding semaphore tokens
(capacity `ms` = `MaxConnections`); `TryAcquire(1)` can succeed only when
`tokens < ms`.  Each operation is a function of the pre-state and of
oracle parameters (constructor success, context cancellation, semaphore
outcome); operations that cannot complete from a state (a blocking
semaphore acquire that is never satisfied, the `bump` panic, the
non-terminating `close` loop) return `none`. -/

inductive Status where
  | initialising
  | idle
  | acquired
deriving DecidableEq, Repr

inductive PoolErr where
  | poolClosed
  | spaceNotAvailable
  | ctxCanceled
  | ctorError
deriving DecidableEq, Repr

structure PoolState where
  all : List Nat
  idleStack : MVStack
  status : Nat → Status
  lastUsed : Nat → Nat
  tokens : Nat
  closed : Bool
  nextId : Nat
  destructWG : Nat
  acquireCount : Nat
  emptyAcquireCount : Nat
  canceledAcquireCount : Nat
  destroyCount : Nat → Nat

/-- Pointwise update of a function field. -/
def setFun {α : Type} (f : Nat → α) (k : Nat) (v : α) : Nat → α :=
  fun x => if x = k then v else f x

/-- The state built by `newPool`: empty registry, fresh aliased stack. -/
def initialPoolState : PoolState where
  all := []
  idleStack := newMVStack
  status := fun _ => .initialising
  lastUsed := fun _ => 0
  tokens := 0
  closed := false
  nextId := 0
  destructWG := 0
  acquireCount := 0
  emptyAcquireCount := 0
  canceledAcquireCount := 0
  destroyCount := fun _ => 0

/-- `pool.newConnection`: fresh record with status `initialising`,
appended to the registry; `destructWG.Add(1)`.  Returns the new record's
id.  `now` stands for `time.Now().UnixNano()`. -/
def newConnection (now : Nat) (st : PoolState) : Nat × PoolState :=
  (st.nextId,
    { st with
      all := st.all ++ [st.nextId]
      status := setFun st.status st.nextId .initialising
      lastUsed := setFun st.lastUsed st.nextId now
      nextId := st.nextId + 1
      destructWG := st.destructWG + 1 })

/-- `pool.destroyConnection`: run the destructor (traced by
`destroyCount`), `destructWG.Done()`. -/
def destroyConnection (c : Nat) (st : PoolState) : PoolState :=
  { st with
    destructWG := st.destructWG - 1
    destroyCount := setFun st.destroyCount c (st.destroyCount c + 1) }

/-- `pool.destroyAcquiredConnection`: destroy, then under the mutex remove
from the registry and release the semaphore token. -/
def destroyAcquiredConnection (c : Nat) (st : PoolState) : PoolState :=
  let st1 := destroyConnection c st
  { st1 with
    all := removeFromConnections st1.all c
    tokens := st1.tokens - 1 }

/-- `pool.release`: release the token; if the pool is closed, remove the
record and destroy it in the background, otherwise mark it idle, stamp
`lastUsedNano := ts` and push it onto the idle stack. -/
def release (c : Nat) (ts : Nat) (st : PoolState) : PoolState :=
  if st.closed then
    let st1 := destroyConnection c { st with all := removeFromConnections st.all c }
    { st1 with tokens := st1.tokens - 1 }
  else
    { st with
      status := setFun st.status c .idle
      lastUsed := setFun st.lastUsed c ts
      idleStack := mvPush c st.idleStack
      tokens := st.tokens - 1 }

/-- `pool.releaseUnused`: `release` with the record's existing
`lastUsedNano`. -/
def releaseUnused (c : Nat) (st : PoolState) : PoolState :=
  release c (st.lastUsed c) st

/-- `pool.createConnection` (the non-blocking create used by warmup and
the health checker).  `ctorOk` is the driver constructor's outcome. -/
def createConnection (ms now : Nat) (ctorOk : Bool) (st : PoolState) :
    Except PoolErr Unit × PoolState :=
  if ms ≤ st.tokens then (.error .spaceNotAvailable, st)
  else
    let st1 := { st with tokens := st.tokens + 1 }
    if st1.closed then (.error .poolClosed, { st1 with tokens := st1.tokens - 1 })
    else if ms ≤ st1.all.length then
      (.error .spaceNotAvailable, { st1 with tokens := st1.tokens - 1 })
    else
      let id := (newConnection now st1).1
      let st2 := (newConnection now st1).2
      if ctorOk then
        let st3 := { st2 with status := setFun st2.status id .idle }
        if st3.closed then
          let st4 := { st3 with
            destroyCount := setFun st3.destroyCount id (st3.destroyCount id + 1) }
          (.error .poolClosed, { st4 with tokens := st4.tokens - 1 })
        else
          (.ok (), { st3 with
            idleStack := mvPush id st3.idleStack
            tokens := st3.tokens - 1 })
      else
        (.error .ctorError,
          { st2 with
            all := removeFromConnections st2.all id
            destructWG := st2.destructWG - 1
            tokens := st2.tokens - 1 })

/-- Outcome of the one-token semaphore phase of `acquireConnection`:
the initial `TryAcquire(1)` succeeded (`immediate`), or it failed and the
blocking `Acquire` later succeeded (`waitedOk`) or was cancelled by the
caller's context (`waitedCanceled`). -/
inductive SemOutcome where
  | immediate
  | waitedOk
  | waitedCanceled
deriving DecidableEq, Repr

/-- Body of `pool.acquireConnection` after a token was obtained; `waited`
records whether the initial `TryAcquire` had failed.  Folds in
`initialiseAcquiredConnection` (the construction/cancellation race) on the
create path: `ctorOk` is the driver constructor's outcome and `canceled`
tells whether the caller's context was already cancelled when the
construction subtask finished. -/
def acquireConnectionTok (waited ctorOk canceled : Bool) (now : Nat)
    (st : PoolState) : Except PoolErr Nat × PoolState :=
  let st1 := { st with tokens := st.tokens + 1 }
  if st1.closed then (.error .poolClosed, { st1 with tokens := st1.tokens - 1 })
  else
    match mvPop st1.idleStack with
    | (some c, s') =>
      (.ok c,
        { st1 with
          idleStack := s'
          status := setFun st1.status c .acquired
          emptyAcquireCount := st1.emptyAcquireCount + (if waited then 1 else 0)
          acquireCount := st1.acquireCount + 1 })
    | (none, s') =>
      let st2 := { st1 with idleStack := s' }
      let id := (newConnection now st2).1
      let st3 := (newConnection now st2).2
      if ctorOk then
        let st4 := { st3 with status := setFun st3.status id .acquired }
        if canceled then
          let st5 := release id (st4.lastUsed id) st4
          (.error .ctxCanceled,
            { st5 with canceledAcquireCount := st5.canceledAcquireCount + 1 })
        else
          (.ok id,
            { st4 with
              emptyAcquireCount := st4.emptyAcquireCount + 1
              acquireCount := st4.acquireCount + 1 })
      else
        let st4 := { st3 with
          all := removeFromConnections st3.all id
          destructWG := st3.destructWG - 1
          tokens := st3.tokens - 1 }
        if canceled then
          (.error .ctxCanceled,
            { st4 with canceledAcquireCount := st4.canceledAcquireCount + 1 })
        else
          (.error .ctorError, st4)

/-- `pool.acquireConnection`.  A token can be granted only while
`tokens < ms`; a blocking acquire that would never be satisfied within the
operation is not a completing execution (`none`). -/
def acquireConnection (ms : Nat) (sem : SemOutcome) (ctorOk canceled : Bool)
    (now : Nat) (st : PoolState) : Option (Except PoolErr Nat × PoolState) :=
  match sem with
  | .waitedCanceled =>
    some (.error .ctxCanceled,
      { st with canceledAcquireCount := st.canceledAcquireCount + 1 })
  | .immediate =>
    if ms ≤ st.tokens then none
    else some (acquireConnectionTok false ctorOk canceled now st)
  | .waitedOk =>
    if ms ≤ st.tokens then none
    else some (acquireConnectionTok true ctorOk canceled now st)

/-- One bit step of `acquireSemAll`'s exponential fallback: for bit
positions `i, i-1, …, 0`, try to acquire `2^i` tokens from the `free`
remaining ones; accumulate the successes.  Returns (acquired, free'). -/
def acquireSemAllBits : Nat → Nat → Nat × Nat
  | 0, free => if 1 ≤ free then (1, free - 1) else (0, free)
  | i + 1, free =>
    let v := 2 ^ (i + 1)
    if v ≤ free then
      let r := acquireSemAllBits i (free - v)
      (v + r.1, r.2)
    else
      acquireSemAllBits i free

/-- `pool.acquireSemAll`: try `TryAcquire(count)`; on failure fall back to
trying `2^i` for each bit position from `⌊log₂ count⌋` down to 0.
`free` is the number of free semaphore permits, so `TryAcquire(n)`
succeeds exactly when `n ≤ free`. -/
def acquireSemAll (free count : Nat) : Nat × Nat :=
  if count ≤ free then (count, free - count)
  else acquireSemAllBits (Nat.log2 count) free

/-- The pop loop of `acquireAllIdleConnections`: pop `k` records, flip
each to `acquired`.  The Go code ignores the pop's `ok` flag, so a failing
pop would dereference nil; that cannot happen because `k` never exceeds
the idle count. -/
def popAcquireN : Nat → PoolState → Option (List Nat × PoolState)
  | 0, st => some ([], st)
  | k + 1, st =>
    match mvPop st.idleStack with
    | (some c, s') =>
      match popAcquireN k
          { st with idleStack := s', status := setFun st.status c .acquired } with
      | some (l, st') => some (c :: l, st')
      | none => none
    | (none, _) => none

/-- `pool.acquireAllIdleConnections`: under the mutex, grab as many
semaphore tokens as possible non-blockingly (up to the idle count), pop
that many idle records, mark them acquired, and `bump()` the stack. -/
def acquireAllIdleConnections (ms : Nat) (st : PoolState) :
    Option (List Nat × PoolState) :=
  if st.closed then some ([], st)
  else
    let n := mvLength st.idleStack
    if n = 0 then some ([], st)
    else
      let k := (acquireSemAll (ms - st.tokens) n).1
      match popAcquireN k { st with tokens := st.tokens + k } with
      | some (l, st') =>
        match mvBump st'.idleStack with
        | some s2 => some (l, { st' with idleStack := s2 })
        | none => none
      | none => none

/-- Body of the `close` loop: remove the popped record from the registry
and schedule its background destruction. -/
def closeBody (c : Nat) (st : PoolState) : PoolState :=
  destroyConnection c { st with all := removeFromConnections st.all c }

/-- The `for c, ok := p.idleConnections.pop(); ok; { … }` loop of
`pool.close`: the loop has no post statement and the body never updates
`c` or `ok`, so once entered it runs forever on the same record.  `fuel`
bounds the number of iterations we unfold; `none` means the loop is still
running. -/
def closeLoopAux (c : Nat) : Nat → PoolState → Option PoolState
  | 0, _ => none
  | fuel + 1, st => closeLoopAux c fuel (closeBody c st)

/-- `pool.close`: mark closed, cancel the base context, then run the
idle-drain loop.  (The `destructWG.Wait()` performed after the mutex is
released only delays the return and mutates nothing.) -/
def closeCode (fuel : Nat) (st : PoolState) : Option PoolState :=
  if st.closed then some st
  else
    let st1 := { st with closed := true }
    match mvPop st1.idleStack with
    | (none, s') => some { st1 with idleStack := s' }
    | (some c, s') => closeLoopAux c fuel { st1 with idleStack := s' }

/-- One atomic pool operation, with all oracle parameters quantified.
`release`, `releaseUnused` and `destroyAcquiredConnection` are invoked
only on records their caller holds, i.e. records in the registry with
status `acquired`. -/
inductive Step (ms : Nat) : PoolState → PoolState → Prop where
  | createConn (now : Nat) (ctorOk : Bool) (st : PoolState) :
      Step ms st (createConnection ms now ctorOk st).2
  | acquireConn (sem : SemOutcome) (ctorOk canceled : Bool) (now : Nat)
      (st : PoolState) (r : Except PoolErr Nat) (st' : PoolState)
      (h : acquireConnection ms sem ctorOk canceled now st = some (r, st')) :
      Step ms st st'
  | releaseConn (c ts : Nat) (st : PoolState) (hc : c ∈ st.all)
      (hs : st.status c = .acquired) :
      Step ms st (release c ts st)
  | releaseUnusedConn (c : Nat) (st : PoolState) (hc : c ∈ st.all)
      (hs : st.status c = .acquired) :
      Step ms st (releaseUnused c st)
  | destroyAcq (c : Nat) (st : PoolState) (hc : c ∈ st.all)
      (hs : st.status c = .acquired) :
      Step ms st (destroyAcquiredConnection c st)
  | acquireAllIdle (st : PoolState) (l : List Nat) (st' : PoolState)
      (h : acquireAllIdleConnections ms st = some (l, st')) :
      Step ms st st'
  | closeStep (fuel : Nat) (st st' : PoolState)
      (h : closeCode fuel st = some st') :
      Step ms st st'

/-- A pool state reachable from the initial state by pool operations. -/
def Reachable (ms : Nat) (st : PoolState) : Prop :=
  Relation.ReflTransGen (Step ms) initialPoolState st

/-- The pool's inductive invariant. -/
structure Inv (ms : Nat) (st : PoolState) : Prop where
  nodupAll : st.all.Nodup
  stackSub : ∀ c ∈ stackList st.idleStack, c ∈ st.all
  stackIdle : ∀ c ∈ st.all, (st.status c = .idle ↔ c ∈ stackList st.idleStack)
  stackNodup : (stackList st.idleStack).Nodup
  sumEq : st.tokens + (stackList st.idleStack).length = st.all.length
  capBound : st.all.length ≤ ms
  freshAll : ∀ c ∈ st.all, c < st.nextId

/-! ## Theorems: multi-version stack -/

theorem stackList_mvPush (c : Nat) (s : MVStack) :
    List.Perm (stackList (mvPush c s)) (c :: stackList s) := by
  cases s with
  | single l => exact List.Perm.refl _
  | dual o n => exact List.perm_middle

theorem mem_stackList_mvPush {x c : Nat} {s : MVStack} :
    x ∈ stackList (mvPush c s) ↔ x = c ∨ x ∈ stackList s := by
  have h := (stackList_mvPush c s).mem_iff (a := x)
  simpa using h

theorem nodup_stackList_mvPush {c : Nat} {s : MVStack}
    (hc : c ∉ stackList s) (hs : (stackList s).Nodup) :
    (stackList (mvPush c s)).Nodup :=
  (stackList_mvPush c s).nodup_iff.mpr (List.nodup_cons.mpr ⟨hc, hs⟩)

theorem mvPop_some {s s' : MVStack} {c : Nat} (h : mvPop s = (some c, s')) :
    stackList s = c :: stackList s' := by
  cases s with
  | single l =>
    cases l with
    | nil => simp [mvPop] at h
    | cons a l =>
      simp only [mvPop, Prod.mk.injEq, Option.some.injEq] at h
      obtain ⟨rfl, rfl⟩ := h
      rfl
  | dual o n =>
    cases o with
    | nil =>
      cases n with
      | nil => simp [mvPop] at h
      | cons a n =>
        simp only [mvPop, Prod.mk.injEq, Option.some.injEq] at h
        obtain ⟨rfl, rfl⟩ := h
        rfl
    | cons a o =>
      simp only [mvPop, Prod.mk.injEq, Option.some.injEq] at h
      obtain ⟨rfl, rfl⟩ := h
      rfl

theorem mvPop_none {s s' : MVStack} (h : mvPop s = (none, s')) :
    stackList s = [] ∧ stackList s' = [] := by
  cases s with
  | single l =>
    cases l with
    | nil =>
      simp only [mvPop, Prod.mk.injEq] at h
      refine ⟨rfl, ?_⟩
      rw [← h.2]
      rfl
    | cons a l => simp [mvPop] at h
  | dual o n =>
    cases o with
    | nil =>
      cases n with
      | nil =>
        simp only [mvPop, Prod.mk.injEq] at h
        refine ⟨rfl, ?_⟩
        rw [← h.2]
        rfl
      | cons a n => simp [mvPop] at h
    | cons a o => simp [mvPop] at h

theorem mvPop_fst_eq_none_iff {s : MVStack} :
    (mvPop s).1 = none ↔ stackList s = [] := by
  cases s with
  | single l => cases l <;> simp [mvPop, stackList]
  | dual o n =>
    cases o with
    | nil => cases n <;> simp [mvPop, stackList]
    | cons a o => simp [mvPop, stackList]

theorem mvBump_some {s s' : MVStack} (h : mvBump s = some s') :
    stackList s' = stackList s := by
  cases s with
  | single l =>
    simp only [mvBump, Option.some.injEq] at h
    subst h
    simp [stackList]
  | dual o n =>
    cases o with
    | nil =>
      simp only [mvBump, Option.some.injEq] at h
      subst h
      simp [stackList]
    | cons a o => simp [mvBump] at h

theorem mvLength_eq (s : MVStack) : mvLength s = (stackList s).length := by
  cases s <;> simp [mvLength, stackList]

/-! ## Theorems: `removeFromConnections` -/

theorem removeFromConnections_of_not_mem {v : List Nat} {c : Nat}
    (h : c ∉ v) : removeFromConnections v c = v := by
  unfold removeFromConnections
  have hn : v.findIdx? (fun e => e = c) = none := by
    rw [List.findIdx?_eq_none_iff]
    intro x hx
    simp only [decide_eq_false_iff_not]
    intro hxc
    exact h (hxc ▸ hx)
  rw [hn]

theorem removeFromConnections_eq_of_findIdx {v : List Nat} {c i : Nat}
    (h : v.findIdx? (fun e => e = c) = some i) :
    removeFromConnections v c = (v.set i (v.getLastD 0)).dropLast := by
  unfold removeFromConnections
  rw [h]

theorem findIdx?_exists_of_mem {v : List Nat} {c : Nat} (hc : c ∈ v) :
    ∃ i, v.findIdx? (fun e => e = c) = some i :=
  ⟨v.findIdx (fun e => e = c),
    List.findIdx?_eq_some_of_exists ⟨c, hc, by simp⟩⟩

theorem removeFromConnections_cons_of_ne {x c : Nat} {v : List Nat}
    (hx : x ≠ c) (hc : c ∈ v) :
    removeFromConnections (x :: v) c = x :: removeFromConnections v c := by
  obtain ⟨i, hi⟩ := findIdx?_exists_of_mem hc
  have hvne : v ≠ [] := by rintro rfl; simp at hc
  have hcons : (x :: v).findIdx? (fun e => e = c) = some (i + 1) := by
    rw [List.findIdx?_cons]
    simp only [hx, decide_eq_true_eq, if_neg hx, List.findIdx?_succ, hi]
    rfl
  rw [removeFromConnections_eq_of_findIdx hcons,
    removeFromConnections_eq_of_findIdx hi]
  have hlast : (x :: v).getLastD 0 = v.getLastD 0 := by
    rw [List.getLastD_cons, List.getLastD_eq_getLast?, List.getLastD_eq_getLast?,
      List.getLast?_eq_getLast v hvne, Option.getD_some, Option.getD_some]
  rw [hlast]
  have hset : (x :: v).set (i + 1) (v.getLastD 0) = x :: v.set i (v.getLastD 0) := rfl
  rw [hset]
  have hsetne : v.set i (v.getLastD 0) ≠ [] := by
    intro hnil
    have hlen := congrArg List.length hnil
    simp at hlen
    exact hvne hlen
  rw [List.dropLast_cons_of_ne_nil hsetne]

theorem removeFromConnections_cons_self {c : Nat} {v : List Nat} :
    removeFromConnections (c :: v) c = ((c :: v).getLastD 0 :: v).dropLast := by
  have hcons : (c :: v).findIdx? (fun e => e = c) = some 0 := by
    rw [List.findIdx?_cons]
    simp
  rw [removeFromConnections_eq_of_findIdx hcons]
  rfl

theorem removeFromConnections_perm_erase {v : List Nat} {c : Nat}
    (h : c ∈ v) : List.Perm (removeFromConnections v c) (v.erase c) := by
  induction v with
  | nil => simp at h
  | cons x v ih =>
    by_cases hx : x = c
    · subst hx
      rw [removeFromConnections_cons_self, List.erase_cons_head]
      rcases List.eq_nil_or_concat v with rfl | ⟨w, b, rfl⟩
      · simp
      · rw [List.concat_eq_append]
        have hx2 : (x :: (w ++ [b])).getLastD 0 = b := by
          rw [List.getLastD_cons, List.getLastD_concat]
        rw [hx2]
        rw [show (b :: (w ++ [b])) = (b :: w) ++ [b] by simp]
        rw [List.dropLast_concat]
        exact (List.perm_append_singleton b w).symm
    · have hc : c ∈ v := by
        rcases List.mem_cons.mp h with h' | h'
        · exact absurd h'.symm hx
        · exact h'
      rw [removeFromConnections_cons_of_ne hx hc,
        List.erase_cons_tail (by simpa using hx)]
      exact (ih hc).cons x

theorem removeFromConnections_length {v : List Nat} {c : Nat} (h : c ∈ v) :
    (removeFromConnections v c).length = v.length - 1 := by
  rw [(removeFromConnections_perm_erase h).length_eq, List.length_erase_of_mem h]

theorem removeFromConnections_nodup {v : List Nat} {c : Nat}
    (h : v.Nodup) : (removeFromConnections v c).Nodup := by
  by_cases hc : c ∈ v
  · exact (removeFromConnections_perm_erase hc).nodup_iff.mpr (h.erase c)
  · rw [removeFromConnections_of_not_mem hc]
    exact h

theorem mem_removeFromConnections {v : List Nat} {c x : Nat}
    (hnd : v.Nodup) (h : c ∈ v) :
    x ∈ removeFromConnections v c ↔ x ≠ c ∧ x ∈ v := by
  rw [(removeFromConnections_perm_erase h).mem_iff, hnd.mem_erase_iff]

/-! ## Theorems: invariant preservation -/

theorem length_stackList_mvPush (c : Nat) (s : MVStack) :
    (stackList (mvPush c s)).length = (stackList s).length + 1 := by
  rw [(stackList_mvPush c s).length_eq, List.length_cons]

theorem closeLoopAux_eq_none (c : Nat) :
    ∀ fuel st, closeLoopAux c fuel st = none := by
  intro fuel
  induction fuel with
  | zero => intro st; rfl
  | succ fuel ih => intro st; exact ih (closeBody c st)

theorem inv_init (ms : Nat) : Inv ms initialPoolState := by
  refine ⟨?_, ?_, ?_, ?_, ?_, ?_, ?_⟩ <;>
    simp [initialPoolState, newMVStack, stackList]

theorem tokens_pos {ms : Nat} {st : PoolState} {c : Nat} (inv : Inv ms st)
    (hc : c ∈ st.all) (hs : st.status c = .acquired) : 1 ≤ st.tokens := by
  have hcnot : c ∉ stackList st.idleStack := by
    intro hmem
    have hidle := (inv.stackIdle c hc).mpr hmem
    rw [hs] at hidle
    cases hidle
  have hsub : (c :: stackList st.idleStack) ⊆ st.all := by
    intro x hx
    rcases List.mem_cons.mp hx with rfl | hx
    · exact hc
    · exact inv.stackSub x hx
  have hnd : (c :: stackList st.idleStack).Nodup :=
    List.nodup_cons.mpr ⟨hcnot, inv.stackNodup⟩
  have hlen := (List.subperm_of_subset hnd hsub).length_le
  have hsum := inv.sumEq
  simp only [List.length_cons] at hlen
  omega

theorem not_mem_stack_of_acquired {ms : Nat} {st : PoolState} {c : Nat}
    (inv : Inv ms st) (hc : c ∈ st.all) (hs : st.status c = .acquired) :
    c ∉ stackList st.idleStack := by
  intro hmem
  have hidle := (inv.stackIdle c hc).mpr hmem
  rw [hs] at hidle
  cases hidle

theorem inv_release {ms : Nat} {st : PoolState} (c ts : Nat)
    (inv : Inv ms st) (hc : c ∈ st.all) (hs : st.status c = .acquired) :
    Inv ms (release c ts st) := by
  have hcnot : c ∉ stackList st.idleStack := not_mem_stack_of_acquired inv hc hs
  have htok : 1 ≤ st.tokens := tokens_pos inv hc hs
  unfold release
  by_cases hcl : st.closed
  · rw [if_pos hcl]
    have hrm : ∀ x, x ∈ removeFromConnections st.all c ↔ x ≠ c ∧ x ∈ st.all :=
      fun x => mem_removeFromConnections inv.nodupAll hc
    refine ⟨?_, ?_, ?_, ?_, ?_, ?_, ?_⟩
    · exact removeFromConnections_nodup inv.nodupAll
    · intro x hx
      exact (hrm x).mpr ⟨fun hxc => hcnot (hxc ▸ hx), inv.stackSub x hx⟩
    · intro x hx
      exact inv.stackIdle x ((hrm x).mp hx).2
    · exact inv.stackNodup
    · show st.tokens - 1 + (stackList st.idleStack).length =
        (removeFromConnections st.all c).length
      rw [removeFromConnections_length hc]
      have hsum := inv.sumEq
      omega
    · show (removeFromConnections st.all c).length ≤ ms
      rw [removeFromConnections_length hc]
      have hcap := inv.capBound
      omega
    · intro x hx
      exact inv.freshAll x ((hrm x).mp hx).2
  · rw [if_neg hcl]
    refine ⟨?_, ?_, ?_, ?_, ?_, ?_, ?_⟩
    · exact inv.nodupAll
    · intro x hx
      rcases mem_stackList_mvPush.mp hx with rfl | hx
      · exact hc
      · exact inv.stackSub x hx
    · intro x hx
      show setFun st.status c .idle x = .idle ↔ x ∈ stackList (mvPush c st.idleStack)
      rw [mem_stackList_mvPush]
      unfold setFun
      by_cases hxc : x = c
      · simp [hxc]
      · simp only [if_neg hxc]
        rw [inv.stackIdle x hx]
        simp [hxc]
    · exact nodup_stackList_mvPush hcnot inv.stackNodup
    · show st.tokens - 1 + (stackList (mvPush c st.idleStack)).length = st.all.length
      rw [length_stackList_mvPush]
      have hsum := inv.sumEq
      omega
    · exact inv.capBound
    · exact inv.freshAll

theorem inv_releaseUnused {ms : Nat} {st : PoolState} {c : Nat}
    (inv : Inv ms st) (hc : c ∈ st.all) (hs : st.status c = .acquired) :
    Inv ms (releaseUnused c st) :=
  inv_release c (st.lastUsed c) inv hc hs

theorem inv_destroyAcquired {ms : Nat} {st : PoolState} {c : Nat}
    (inv : Inv ms st) (hc : c ∈ st.all) (hs : st.status c = .acquired) :
    Inv ms (destroyAcquiredConnection c st) := by
  have hcnot : c ∉ stackList st.idleStack := not_mem_stack_of_acquired inv hc hs
  have htok : 1 ≤ st.tokens := tokens_pos inv hc hs
  have hrm : ∀ x, x ∈ removeFromConnections st.all c ↔ x ≠ c ∧ x ∈ st.all :=
    fun x => mem_removeFromConnections inv.nodupAll hc
  refine ⟨?_, ?_, ?_, ?_, ?_, ?_, ?_⟩
  · exact removeFromConnections_nodup inv.nodupAll
  · intro x hx
    exact (hrm x).mpr ⟨fun hxc => hcnot (hxc ▸ hx), inv.stackSub x hx⟩
  · intro x hx
    exact inv.stackIdle x ((hrm x).mp hx).2
  · exact inv.stackNodup
  · show st.tokens - 1 + (stackList st.idleStack).length =
      (removeFromConnections st.all c).length
    rw [removeFromConnections_length hc]
    have hsum := inv.sumEq
    omega
  · show (removeFromConnections st.all c).length ≤ ms
    rw [removeFromConnections_length hc]
    have hcap := inv.capBound
    omega
  · intro x hx
    exact inv.freshAll x ((hrm x).mp hx).2

theorem nextId_not_mem {ms : Nat} {st : PoolState} (inv : Inv ms st) :
    st.nextId ∉ st.all :=
  fun h => absurd (inv.freshAll _ h) (lt_irrefl _)

theorem nextId_not_mem_stack {ms : Nat} {st : PoolState} (inv : Inv ms st) :
    st.nextId ∉ stackList st.idleStack :=
  fun h => nextId_not_mem inv (inv.stackSub _ h)

theorem inv_createConnection {ms : Nat} {st : PoolState} (now : Nat)
    (ctorOk : Bool) (inv : Inv ms st) :
    Inv ms (createConnection ms now ctorOk st).2 := by
  have hid : st.nextId ∉ st.all := nextId_not_mem inv
  have hids : st.nextId ∉ stackList st.idleStack := nextId_not_mem_stack inv
  unfold createConnection
  by_cases h1 : ms ≤ st.tokens
  · rw [if_pos h1]
    exact inv
  · rw [if_neg h1]
    by_cases hcl : st.closed
    · rw [if_pos (show ({st with tokens := st.tokens + 1} : PoolState).closed = true from hcl)]
      refine ⟨inv.nodupAll, inv.stackSub, inv.stackIdle, inv.stackNodup, ?_, inv.capBound, inv.freshAll⟩
      show st.tokens + 1 - 1 + (stackList st.idleStack).length = st.all.length
      have hsum := inv.sumEq
      omega
    · rw [if_neg (show ¬({st with tokens := st.tokens + 1} : PoolState).closed = true from hcl)]
      by_cases h3 : ms ≤ st.all.length
      · rw [if_pos (show ms ≤ ({st with tokens := st.tokens + 1} : PoolState).all.length from h3)]
        refine ⟨inv.nodupAll, inv.stackSub, inv.stackIdle, inv.stackNodup, ?_, inv.capBound, inv.freshAll⟩
        show st.tokens + 1 - 1 + (stackList st.idleStack).length = st.all.length
        have hsum := inv.sumEq
        omega
      · rw [if_neg (show ¬ms ≤ ({st with tokens := st.tokens + 1} : PoolState).all.length from h3)]
        unfold newConnection
        by_cases h4 : ctorOk
        · rw [if_pos h4]
          rw [if_neg (show ¬(_ : PoolState).closed = true from hcl)]
          refine ⟨?_, ?_, ?_, ?_, ?_, ?_, ?_⟩
          · show (st.all ++ [st.nextId]).Nodup
            simp [List.nodup_append, inv.nodupAll, hid]
          · intro x hx
            show x ∈ st.all ++ [st.nextId]
            rcases mem_stackList_mvPush.mp hx with rfl | hx
            · simp
            · simp only [List.mem_append]
              exact Or.inl (inv.stackSub x hx)
          · intro x hx
            show setFun (setFun st.status st.nextId .initialising) st.nextId .idle x = .idle ↔
              x ∈ stackList (mvPush st.nextId st.idleStack)
            rw [mem_stackList_mvPush]
            unfold setFun
            by_cases hxc : x = st.nextId
            · simp [hxc]
            · simp only [if_neg hxc]
              have hx' : x ∈ st.all := by
                rcases List.mem_append.mp hx with hx' | hx'
                · exact hx'
                · exact absurd (List.mem_singleton.mp hx') hxc
              rw [inv.stackIdle x hx']
              simp [hxc]
          · exact nodup_stackList_mvPush hids inv.stackNodup
          · show st.tokens + 1 - 1 + (stackList (mvPush st.nextId st.idleStack)).length =
              (st.all ++ [st.nextId]).length
            rw [length_stackList_mvPush]
            simp only [List.length_append, List.length_singleton]
            have hsum := inv.sumEq
            omega
          · show (st.all ++ [st.nextId]).length ≤ ms
            simp only [List.length_append, List.length_singleton]
            omega
          · intro x hx
            show x < st.nextId + 1
            rcases List.mem_append.mp hx with hx' | hx'
            · exact Nat.lt_succ_of_lt (inv.freshAll x hx')
            · rw [List.mem_singleton.mp hx']
              exact Nat.lt_succ_self _
        · rw [if_neg h4]
          have hmem : st.nextId ∈ st.all ++ [st.nextId] := by simp
          have hnd : (st.all ++ [st.nextId]).Nodup := by
            simp [List.nodup_append, inv.nodupAll, hid]
          have hrm : ∀ x, x ∈ removeFromConnections (st.all ++ [st.nextId]) st.nextId ↔
              x ≠ st.nextId ∧ x ∈ st.all ++ [st.nextId] :=
            fun x => mem_removeFromConnections hnd hmem
          have hrmmem : ∀ x, x ∈ removeFromConnections (st.all ++ [st.nextId]) st.nextId ↔
              x ∈ st.all := by
            intro x
            rw [hrm x]
            constructor
            · rintro ⟨hne, hx⟩
              rcases List.mem_append.mp hx with hx' | hx'
              · exact hx'
              · exact absurd (List.mem_singleton.mp hx') hne
            · intro hx
              exact ⟨fun hne => hid (hne ▸ hx), List.mem_append.mpr (Or.inl hx)⟩
          refine ⟨?_, ?_, ?_, ?_, ?_, ?_, ?_⟩
          · exact removeFromConnections_nodup hnd
          · intro x hx
            exact (hrmmem x).mpr (inv.stackSub x hx)
          · intro x hx
            have hx' : x ∈ st.all := (hrmmem x).mp hx
            have hxne : x ≠ st.nextId := fun hne => hid (hne ▸ hx')
            show setFun st.status st.nextId .initialising x = .idle ↔
              x ∈ stackList st.idleStack
            unfold setFun
            rw [if_neg hxne]
            exact inv.stackIdle x hx'
          · exact inv.stackNodup
          · show st.tokens + 1 - 1 + (stackList st.idleStack).length =
              (removeFromConnections (st.all ++ [st.nextId]) st.nextId).length
            rw [removeFromConnections_length hmem]
            simp only [List.length_append, List.length_singleton]
            have hsum := inv.sumEq
            omega
          · show (removeFromConnections (st.all ++ [st.nextId]) st.nextId).length ≤ ms
            rw [removeFromConnections_length hmem]
            simp only [List.length_append, List.length_singleton]
            omega
          · intro x hx
            show x < st.nextId + 1
            exact Nat.lt_succ_of_lt (inv.freshAll x ((hrmmem x).mp hx))

theorem inv_acquireConnectionTok {ms : Nat} {st : PoolState}
    (waited ctorOk canceled : Bool) (now : Nat) (h1 : ¬ms ≤ st.tokens)
    (inv : Inv ms st) :
    Inv ms (acquireConnectionTok waited ctorOk canceled now st).2 := by
  have hid : st.nextId ∉ st.all := nextId_not_mem inv
  unfold acquireConnectionTok
  by_cases hcl : st.closed
  · rw [if_pos (show ({st with tokens := st.tokens + 1} : PoolState).closed = true from hcl)]
    refine ⟨inv.nodupAll, inv.stackSub, inv.stackIdle, inv.stackNodup, ?_,
      inv.capBound, inv.freshAll⟩
    show st.tokens + 1 - 1 + (stackList st.idleStack).length = st.all.length
    have hsum := inv.sumEq
    omega
  · rw [if_neg (show ¬({st with tokens := st.tokens + 1} : PoolState).closed = true from hcl)]
    rcases hpop : mvPop st.idleStack with ⟨oc, s'⟩
    cases oc with
    | some c =>
      have hstack : stackList st.idleStack = c :: stackList s' := mvPop_some hpop
      have hcmem : c ∈ stackList st.idleStack := by rw [hstack]; simp
      have hcall : c ∈ st.all := inv.stackSub c hcmem
      have hnd : (c :: stackList s').Nodup := hstack ▸ inv.stackNodup
      have hcnots' : c ∉ stackList s' := (List.nodup_cons.mp hnd).1
      refine ⟨inv.nodupAll, ?_, ?_, (List.nodup_cons.mp hnd).2, ?_, inv.capBound,
        inv.freshAll⟩
      · intro x hx
        exact inv.stackSub x (by rw [hstack]; exact List.mem_cons_of_mem c hx)
      · intro x hx
        show setFun st.status c .acquired x = .idle ↔ x ∈ stackList s'
        unfold setFun
        by_cases hxc : x = c
        · subst hxc
          simp only [if_pos rfl]
          constructor
          · intro h; cases h
          · intro h; exact absurd h hcnots'
        · rw [if_neg hxc]
          rw [inv.stackIdle x hx, hstack]
          simp [hxc]
      · show st.tokens + 1 + (stackList s').length = st.all.length
        have hsum := inv.sumEq
        rw [hstack] at hsum
        simp only [List.length_cons] at hsum
        omega
    | none =>
      dsimp only
      obtain ⟨hempty, hempty'⟩ := mvPop_none hpop
      have hnotidle : ∀ x ∈ st.all, st.status x ≠ .idle := by
        intro x hx hidle
        have := (inv.stackIdle x hx).mp hidle
        rw [hempty] at this
        cases this
      unfold newConnection
      by_cases h4 : ctorOk
      · rw [if_pos h4]
        have inv4 : Inv ms
            { st with
              all := st.all ++ [st.nextId]
              idleStack := s'
              status := setFun (setFun st.status st.nextId .initialising) st.nextId .acquired
              lastUsed := setFun st.lastUsed st.nextId now
              tokens := st.tokens + 1
              nextId := st.nextId + 1
              destructWG := st.destructWG + 1 } := by
          refine ⟨?_, ?_, ?_, ?_, ?_, ?_, ?_⟩
          · show (st.all ++ [st.nextId]).Nodup
            simp [List.nodup_append, inv.nodupAll, hid]
          · intro x hx
            show x ∈ st.all ++ [st.nextId]
            rw [hempty'] at hx
            cases hx
          · intro x hx
            show setFun (setFun st.status st.nextId .initialising) st.nextId .acquired x
              = .idle ↔ x ∈ stackList s'
            rw [hempty']
            unfold setFun
            by_cases hxc : x = st.nextId
            · simp [hxc]
            · rw [if_neg hxc, if_neg hxc]
              have hx' : x ∈ st.all := by
                rcases List.mem_append.mp hx with hx' | hx'
                · exact hx'
                · exact absurd (List.mem_singleton.mp hx') hxc
              simp only [List.not_mem_nil, iff_false]
              exact hnotidle x hx'
          · rw [hempty']
            exact List.nodup_nil
          · show st.tokens + 1 + (stackList s').length = (st.all ++ [st.nextId]).length
            rw [hempty']
            have hsum := inv.sumEq
            rw [hempty] at hsum
            simp only [List.length_nil, Nat.add_zero] at hsum
            simp only [List.length_append, List.length_singleton, List.length_nil]
            omega
          · show (st.all ++ [st.nextId]).length ≤ ms
            have hsum := inv.sumEq
            rw [hempty] at hsum
            simp only [List.length_nil, Nat.add_zero] at hsum
            simp only [List.length_append, List.length_singleton]
            omega
          · intro x hx
            show x < st.nextId + 1
            rcases List.mem_append.mp hx with hx' | hx'
            · exact Nat.lt_succ_of_lt (inv.freshAll x hx')
            · rw [List.mem_singleton.mp hx']
              exact Nat.lt_succ_self _
        by_cases h5 : canceled
        · rw [if_pos h5]
          have hmem4 : st.nextId ∈ st.all ++ [st.nextId] := by simp
          have hst4 : setFun (setFun st.status st.nextId .initialising) st.nextId .acquired
              st.nextId = Status.acquired := by
            unfold setFun
            simp
          have invr := inv_release st.nextId
            (setFun st.lastUsed st.nextId now st.nextId) inv4 hmem4 hst4
          exact ⟨invr.nodupAll, invr.stackSub, invr.stackIdle, invr.stackNodup,
            invr.sumEq, invr.capBound, invr.freshAll⟩
        · rw [if_neg h5]
          exact ⟨inv4.nodupAll, inv4.stackSub, inv4.stackIdle, inv4.stackNodup,
            inv4.sumEq, inv4.capBound, inv4.freshAll⟩
      · rw [if_neg h4]
        have hmem : st.nextId ∈ st.all ++ [st.nextId] := by simp
        have hnd : (st.all ++ [st.nextId]).Nodup := by
          simp [List.nodup_append, inv.nodupAll, hid]
        have hrmmem : ∀ x, x ∈ removeFromConnections (st.all ++ [st.nextId]) st.nextId ↔
            x ∈ st.all := by
          intro x
          rw [mem_removeFromConnections hnd hmem]
          constructor
          · rintro ⟨hne, hx⟩
            rcases List.mem_append.mp hx with hx' | hx'
            · exact hx'
            · exact absurd (List.mem_singleton.mp hx') hne
          · intro hx
            exact ⟨fun hne => hid (hne ▸ hx), List.mem_append.mpr (Or.inl hx)⟩
        have hcore : Inv ms
            { st with
              all := removeFromConnections (st.all ++ [st.nextId]) st.nextId
              idleStack := s'
              status := setFun st.status st.nextId .initialising
              lastUsed := setFun st.lastUsed st.nextId now
              nextId := st.nextId + 1
              destructWG := st.destructWG + 1 - 1
              tokens := st.tokens + 1 - 1 } := by
          refine ⟨?_, ?_, ?_, ?_, ?_, ?_, ?_⟩
          · exact removeFromConnections_nodup hnd
          · intro x hx
            rw [hempty'] at hx
            cases hx
          · intro x hx
            have hx' : x ∈ st.all := (hrmmem x).mp hx
            have hxne : x ≠ st.nextId := fun hne => hid (hne ▸ hx')
            show setFun st.status st.nextId .initialising x = .idle ↔ x ∈ stackList s'
            unfold setFun
            rw [if_neg hxne, hempty']
            simp only [List.not_mem_nil, iff_false]
            exact hnotidle x hx'
          · rw [hempty']
            exact List.nodup_nil
          · show st.tokens + 1 - 1 + (stackList s').length =
              (removeFromConnections (st.all ++ [st.nextId]) st.nextId).length
            rw [hempty', removeFromConnections_length hmem]
            have hsum := inv.sumEq
            rw [hempty] at hsum
            simp only [List.length_nil, Nat.add_zero] at hsum
            simp only [List.length_append, List.length_singleton, List.length_nil]
            omega
          · show (removeFromConnections (st.all ++ [st.nextId]) st.nextId).length ≤ ms
            rw [removeFromConnections_length hmem]
            simp only [List.length_append, List.length_singleton]
            have hcap := inv.capBound
            omega
          · intro x hx
            show x < st.nextId + 1
            exact Nat.lt_succ_of_lt (inv.freshAll x ((hrmmem x).mp hx))
        by_cases h5 : canceled
        · rw [if_pos h5]
          exact ⟨hcore.nodupAll, hcore.stackSub, hcore.stackIdle, hcore.stackNodup,
            hcore.sumEq, hcore.capBound, hcore.freshAll⟩
        · rw [if_neg h5]
          exact ⟨hcore.nodupAll, hcore.stackSub, hcore.stackIdle, hcore.stackNodup,
            hcore.sumEq, hcore.capBound, hcore.freshAll⟩

theorem inv_acquireConnection {ms : Nat} {st st' : PoolState} {sem : SemOutcome}
    {ctorOk canceled : Bool} {now : Nat} {r : Except PoolErr Nat}
    (h : acquireConnection ms sem ctorOk canceled now st = some (r, st'))
    (inv : Inv ms st) : Inv ms st' := by
  cases sem with
  | waitedCanceled =>
    simp only [acquireConnection, Option.some.injEq, Prod.mk.injEq] at h
    rw [← h.2]
    exact ⟨inv.nodupAll, inv.stackSub, inv.stackIdle, inv.stackNodup,
      inv.sumEq, inv.capBound, inv.freshAll⟩
  | immediate =>
    simp only [acquireConnection] at h
    by_cases h1 : ms ≤ st.tokens
    · rw [if_pos h1] at h
      cases h
    · rw [if_neg h1] at h
      simp only [Option.some.injEq] at h
      have := inv_acquireConnectionTok false ctorOk canceled now h1 inv
      rw [h] at this
      exact this
  | waitedOk =>
    simp only [acquireConnection] at h
    by_cases h1 : ms ≤ st.tokens
    · rw [if_pos h1] at h
      cases h
    · rw [if_neg h1] at h
      simp only [Option.some.injEq] at h
      have := inv_acquireConnectionTok true ctorOk canceled now h1 inv
      rw [h] at this
      exact this

theorem popAcquireN_spec :
    ∀ (k : Nat) (st : PoolState) (l : List Nat) (st' : PoolState),
    popAcquireN k st = some (l, st') →
    stackList st.idleStack = l ++ stackList st'.idleStack ∧
    l.length = k ∧
    st'.all = st.all ∧ st'.tokens = st.tokens ∧ st'.closed = st.closed ∧
    st'.nextId = st.nextId ∧
    (∀ x, st'.status x = if x ∈ l then Status.acquired else st.status x) := by
  intro k
  induction k with
  | zero =>
    intro st l st' h
    simp only [popAcquireN, Option.some.injEq, Prod.mk.injEq] at h
    obtain ⟨rfl, rfl⟩ := h
    refine ⟨by simp, rfl, rfl, rfl, rfl, rfl, ?_⟩
    intro x
    simp
  | succ k ih =>
    intro st l st' h
    unfold popAcquireN at h
    rcases hpop : mvPop st.idleStack with ⟨oc, s1⟩
    rw [hpop] at h
    cases oc with
    | none => simp at h
    | some c =>
      dsimp only at h
      rcases hrec : popAcquireN k
          { st with idleStack := s1, status := setFun st.status c .acquired } with
        _ | p
      · rw [hrec] at h
        cases h
      · rcases p with ⟨l1, st1⟩
        rw [hrec] at h
        simp only [Option.some.injEq, Prod.mk.injEq] at h
        obtain ⟨rfl, rfl⟩ := h
        obtain ⟨hstk, hlen, hall, htok, hclosed, hnext, hstatus⟩ := ih _ _ _ hrec
        refine ⟨?_, by simp [hlen], hall, htok, hclosed, hnext, ?_⟩
        · rw [mvPop_some hpop]
          simpa using hstk
        · intro x
          rw [hstatus x]
          by_cases hxl : x ∈ l1
          · simp [hxl]
          · by_cases hxc : x = c
            · simp [hxc, setFun]
            · simp only [List.mem_cons, hxl, hxc, or_self, if_false, setFun,
                if_neg hxc]

theorem inv_acquireAllIdle {ms : Nat} {st st' : PoolState} {l : List Nat}
    (h : acquireAllIdleConnections ms st = some (l, st')) (inv : Inv ms st) :
    Inv ms st' := by
  unfold acquireAllIdleConnections at h
  by_cases hcl : st.closed
  · rw [if_pos hcl] at h
    simp only [Option.some.injEq, Prod.mk.injEq] at h
    rw [← h.2]
    exact inv
  · rw [if_neg hcl] at h
    by_cases hn : mvLength st.idleStack = 0
    · rw [if_pos hn] at h
      simp only [Option.some.injEq, Prod.mk.injEq] at h
      rw [← h.2]
      exact inv
    · rw [if_neg hn] at h
      dsimp only at h
      rcases hpopN : popAcquireN
          (acquireSemAll (ms - st.tokens) (mvLength st.idleStack)).1
          { st with tokens := st.tokens +
              (acquireSemAll (ms - st.tokens) (mvLength st.idleStack)).1 } with
        _ | p
      · rw [hpopN] at h
        cases h
      · rcases p with ⟨l1, st1⟩
        rw [hpopN] at h
        dsimp only at h
        rcases hbump : mvBump st1.idleStack with _ | s2
        · rw [hbump] at h
          cases h
        · rw [hbump] at h
          simp only [Option.some.injEq, Prod.mk.injEq] at h
          obtain ⟨rfl, rfl⟩ := h
          obtain ⟨hstk, hlen, hall, htok, hclosed, hnext, hstatus⟩ :=
            popAcquireN_spec _ _ _ _ hpopN
          dsimp only at hall htok hclosed hnext hstatus
          have hbumpeq : stackList s2 = stackList st1.idleStack := mvBump_some hbump
          have hsplit : stackList st.idleStack = l1 ++ stackList st1.idleStack := hstk
          have hdisj : ∀ x ∈ l1, x ∉ stackList st1.idleStack := by
            have hnd : (l1 ++ stackList st1.idleStack).Nodup := by
              rw [← hsplit]
              exact inv.stackNodup
            intro x hx
            exact List.disjoint_of_nodup_append hnd hx
          refine ⟨?_, ?_, ?_, ?_, ?_, ?_, ?_⟩
          · show st1.all.Nodup
            rw [hall]
            exact inv.nodupAll
          · intro x hx
            show x ∈ st1.all
            rw [hall]
            rw [hbumpeq] at hx
            exact inv.stackSub x (by rw [hsplit]; exact List.mem_append_right l1 hx)
          · intro x hx
            show st1.status x = .idle ↔ x ∈ stackList s2
            rw [hall] at hx
            rw [hstatus x, hbumpeq]
            by_cases hxl : x ∈ l1
            · rw [if_pos hxl]
              constructor
              · intro hcon; cases hcon
              · intro hcon; exact absurd hcon (hdisj x hxl)
            · rw [if_neg hxl]
              rw [inv.stackIdle x hx, hsplit]
              simp [hxl]
          · rw [hbumpeq]
            have hnd : (l1 ++ stackList st1.idleStack).Nodup := by
              rw [← hsplit]
              exact inv.stackNodup
            exact hnd.of_append_right
          · show st1.tokens + (stackList s2).length = st1.all.length
            rw [hall, htok, hbumpeq]
            have hsum := inv.sumEq
            rw [hsplit] at hsum
            simp only [List.length_append] at hsum
            omega
          · show st1.all.length ≤ ms
            rw [hall]
            exact inv.capBound
          · intro x hx
            show x < st1.nextId
            rw [hall] at hx
            rw [hnext]
            exact inv.freshAll x hx

theorem inv_closeCode {ms fuel : Nat} {st st' : PoolState}
    (h : closeCode fuel st = some st') (inv : Inv ms st) : Inv ms st' := by
  unfold closeCode at h
  by_cases hcl : st.closed
  · rw [if_pos hcl] at h
    simp only [Option.some.injEq] at h
    rw [← h]
    exact inv
  · rw [if_neg hcl] at h
    dsimp only at h
    rcases hpop : mvPop st.idleStack with ⟨oc, s'⟩
    rw [hpop] at h
    cases oc with
    | some c =>
      dsimp only at h
      rw [closeLoopAux_eq_none] at h
      cases h
    | none =>
      dsimp only at h
      simp only [Option.some.injEq] at h
      obtain ⟨hempty, hempty'⟩ := mvPop_none hpop
      rw [← h]
      refine ⟨inv.nodupAll, ?_, ?_, ?_, ?_, inv.capBound, inv.freshAll⟩
      · intro x hx
        show x ∈ st.all
        rw [hempty'] at hx
        cases hx
      · intro x hx
        show st.status x = .idle ↔ x ∈ stackList s'
        rw [hempty']
        rw [inv.stackIdle x hx, hempty]
      · rw [hempty']
        exact List.nodup_nil
      · show st.tokens + (stackList s').length = st.all.length
        rw [hempty']
        have hsum := inv.sumEq
        rw [hempty] at hsum
        simpa using hsum

theorem reachable_inv {ms : Nat} {st : PoolState} (h : Reachable ms st) :
    Inv ms st := by
  induction h with
  | refl => exact inv_init ms
  | tail hsteps hstep ih =>
    cases hstep with
    | createConn now ctorOk st => exact inv_createConnection now ctorOk ih
    | acquireConn sem ctorOk canceled now st r st' hq => exact inv_acquireConnection hq ih
    | releaseConn c ts st hc hs => exact inv_release c ts ih hc hs
    | releaseUnusedConn c st hc hs => exact inv_releaseUnused ih hc hs
    | destroyAcq c st hc hs => exact inv_destroyAcquired ih hc hs
    | acquireAllIdle st l st' hq => exact inv_acquireAllIdle hq ih
    | closeStep fuel st st' hq => exact inv_closeCode hq ih

/-! ## Theorems: the exponential semaphore grab -/

theorem acquireSemAllBits_add (i : Nat) :
    ∀ free, (acquireSemAllBits i free).1 + (acquireSemAllBits i free).2 = free := by
  induction i with
  | zero =>
    intro free
    unfold acquireSemAllBits
    by_cases h : 1 ≤ free
    · rw [if_pos h]
      omega
    · rw [if_neg h]
      omega
  | succ i ih =>
    intro free
    unfold acquireSemAllBits
    by_cases h : 2 ^ (i + 1) ≤ free
    · rw [if_pos h]
      have := ih (free - 2 ^ (i + 1))
      dsimp only
      omega
    · rw [if_neg h]
      exact ih free

theorem acquireSemAllBits_le (i free : Nat) :
    (acquireSemAllBits i free).1 ≤ free := by
  have := acquireSemAllBits_add i free
  omega

theorem acquireSemAll_le_count (free count : Nat) :
    (acquireSemAll free count).1 ≤ count := by
  unfold acquireSemAll
  by_cases h : count ≤ free
  · rw [if_pos h]
  · rw [if_neg h]
    have := acquireSemAllBits_le (Nat.log2 count) free
    omega

theorem acquireSemAll_le_free (free count : Nat) :
    (acquireSemAll free count).1 ≤ free := by
  unfold acquireSemAll
  by_cases h : count ≤ free
  · rw [if_pos h]
    omega
  · rw [if_neg h]
    exact acquireSemAllBits_le (Nat.log2 count) free

/-! ## Theorems: the claims -/

/-- Claim C1: the spec requires `close` to pop every remaining idle record,
schedule each for background destruction exactly once, and return.  The
code's drain loop `for c, ok := p.idleConnections.pop(); ok; { … }` has no
post statement and its body never updates `c` or `ok`, so from any
non-closed state with at least one idle record the loop never terminates:
no amount of fuel makes `close` return. -/
theorem close_diverges_with_idle_record (st : PoolState)
    (h1 : st.closed = false) (h2 : stackList st.idleStack ≠ []) :
    ∀ fuel, closeCode fuel st = none := by
  intro fuel
  unfold closeCode
  rw [if_neg (by rw [h1]; simp)]
  dsimp only
  rcases hpop : mvPop st.idleStack with ⟨oc, s'⟩
  cases oc with
  | some c => exact closeLoopAux_eq_none c fuel _
  | none => exact absurd (mvPop_none hpop).1 h2

/-- Witness for C1: a pool with exactly one idle record; `close` does not
return within any number of loop iterations (here: 5). -/
theorem close_diverges_with_idle_record_witness :
    closeCode 5
      { all := [0]
        idleStack := .single [0]
        status := fun _ => .idle
        lastUsed := fun _ => 0
        tokens := 0
        closed := false
        nextId := 1
        destructWG := 1
        acquireCount := 0
        emptyAcquireCount := 0
        canceledAcquireCount := 0
        destroyCount := fun _ => 0 } = none :=
  close_diverges_with_idle_record _ rfl (by decide) 5

/-- Claim C2: the spec requires `bump()` to be well-defined from every
reachable state, in particular when the old generation is non-empty and
distinct from the new one.  The state `push A; bump()` is exactly such a
state (old = [A], new = fresh empty), and a second `bump()` panics there:
the drain loop writes `old[s.old.Length()-1]` after the pop, which indexes
-1 on the final element.  The ordering contract itself cannot be met by an
operation that panics. -/
theorem bump_panics_on_nonempty_old_generation :
    mvBump (mvPush 0 newMVStack) = some (MVStack.dual [0] []) ∧
    mvBump (MVStack.dual [0] []) = none := by
  constructor
  · rfl
  · rfl

/-- Claim C7: from a fresh stack, `push A; bump; push B` pops `A` first and
then `B` (A = 0, B = 1). -/
theorem mv_push_bump_push_pop_order :
    (mvBump (mvPush 0 newMVStack)).map (fun s1 =>
      ((mvPop (mvPush 1 s1)).1, (mvPop (mvPop (mvPush 1 s1)).2).1)) =
      some (some 0, some 1) := by
  rfl

/-- Claim C8: for every idle count `N ≥ 1` and every number of free
semaphore permits, `acquireSemAll` returns a token count `k ≤ N` (it never
blocks: it is a pure function of the free permits); it returns exactly `N`
when `TryAcquire(N)` succeeds (`N ≤ free`), and otherwise returns the
accumulated successes of trying `2^i` tokens for each bit position `i`
from `⌊log₂ N⌋` down to 0. -/
theorem acquireSemAll_spec (free count : Nat) (h : 1 ≤ count) :
    (acquireSemAll free count).1 ≤ count ∧
    (count ≤ free → (acquireSemAll free count).1 = count) ∧
    (free < count →
      (acquireSemAll free count).1 = (acquireSemAllBits (Nat.log2 count) free).1) := by
  refine ⟨acquireSemAll_le_count free count, ?_, ?_⟩
  · intro hle
    unfold acquireSemAll
    rw [if_pos hle]
  · intro hlt
    unfold acquireSemAll
    rw [if_neg (by omega)]

/-- Witness for C8: `N = 5`, 3 free permits: the fallback tries 4, 2, 1
and acquires 2 + 1 = 3 tokens. -/
theorem acquireSemAll_spec_witness :
    (acquireSemAll 3 5).1 ≤ 5 ∧
    (5 ≤ 3 → (acquireSemAll 3 5).1 = 5) ∧
    (3 < 5 → (acquireSemAll 3 5).1 = (acquireSemAllBits (Nat.log2 5) 3).1) :=
  acquireSemAll_spec 3 5 (by decide)

/-- Claim C5: in every reachable pool state the all-connections registry
has between 0 and `MaxConnections` entries. -/
theorem reachable_registry_bounded {ms : Nat} {st : PoolState}
    (h : Reachable ms st) : st.all.length ≤ ms :=
  (reachable_inv h).capBound

/-- Witness for C5: the state after one successful `createConnection` on a
fresh pool with `MaxConnections = 4`. -/
theorem reachable_registry_bounded_witness :
    (createConnection 4 0 true initialPoolState).2.all.length ≤ 4 :=
  reachable_registry_bounded
    (Relation.ReflTransGen.single (Step.createConn 0 true initialPoolState))

/-- Claim C4: in every reachable pool state, a record in the registry has
status `idle` iff it is on the idle stack, in which case it appears there
exactly once; a record with status `acquired` is never on the idle
stack. -/
theorem reachable_idle_iff_on_stack {ms : Nat} {st : PoolState}
    (h : Reachable ms st) (c : Nat) (hc : c ∈ st.all) :
    (st.status c = .idle ↔ (stackList st.idleStack).count c = 1) ∧
    (st.status c = .acquired → c ∉ stackList st.idleStack) := by
  have inv := reachable_inv h
  constructor
  · constructor
    · intro hidle
      exact List.count_eq_one_of_mem inv.stackNodup ((inv.stackIdle c hc).mp hidle)
    · intro hcount
      have hmem : c ∈ stackList st.idleStack := by
        rw [← List.count_pos_iff]
        omega
      exact (inv.stackIdle c hc).mpr hmem
  · intro hacq
    exact not_mem_stack_of_acquired inv hc hacq

theorem acquireConnectionTok_canceled_release (waited : Bool) (now : Nat)
    (st : PoolState) (hcl : st.closed = false)
    (hempty : stackList st.idleStack = []) :
    ∃ st',
      acquireConnectionTok waited true true now st = (.error .ctxCanceled, st') ∧
      st'.canceledAcquireCount = st.canceledAcquireCount + 1 ∧
      st.nextId ∈ st'.all ∧
      st'.status st.nextId = .idle ∧
      st.nextId ∈ stackList st'.idleStack ∧
      st'.lastUsed st.nextId = now ∧
      st'.destroyCount = st.destroyCount := by
  unfold acquireConnectionTok
  rw [if_neg (show ¬({st with tokens := st.tokens + 1} : PoolState).closed = true from by
    rw [hcl]; simp)]
  rcases hpop : mvPop st.idleStack with ⟨oc, s'⟩
  cases oc with
  | some c =>
    exfalso
    have := mvPop_some hpop
    rw [hempty] at this
    cases this
  | none =>
    dsimp only
    unfold newConnection release
    dsimp only
    rw [if_pos rfl, if_pos rfl]
    rw [if_neg (show ¬(_ : PoolState).closed = true from by rw [hcl]; simp)]
    refine ⟨_, rfl, rfl, by simp, by simp [setFun], ?_, by simp [setFun], rfl⟩
    exact mem_stackList_mvPush.mpr (Or.inl rfl)

/-- Claim C3: if the driver constructor succeeds but the caller's context
is already cancelled when the construction subtask finishes, the acquire
returns the context error, the cancelled-acquires counter is incremented,
and the newly built record is returned to the idle pool: status `idle`,
pushed onto the idle stack, still in the all-connections registry, with
its last-used timestamp unchanged from creation — not destroyed. -/
theorem acquire_canceled_returns_connection_to_pool (ms now : Nat)
    (st : PoolState) (sem : SemOutcome) (h1 : st.tokens < ms)
    (hcl : st.closed = false) (hempty : stackList st.idleStack = [])
    (hsem : sem ≠ .waitedCanceled) :
    ∃ st',
      acquireConnection ms sem true true now st = some (.error .ctxCanceled, st') ∧
      st'.canceledAcquireCount = st.canceledAcquireCount + 1 ∧
      st.nextId ∈ st'.all ∧
      st'.status st.nextId = .idle ∧
      st.nextId ∈ stackList st'.idleStack ∧
      st'.lastUsed st.nextId = now ∧
      st'.destroyCount = st.destroyCount := by
  cases sem with
  | waitedCanceled => exact absurd rfl hsem
  | immediate =>
    obtain ⟨st', heq, hrest⟩ :=
      acquireConnectionTok_canceled_release false now st hcl hempty
    refine ⟨st', ?_, hrest⟩
    unfold acquireConnection
    dsimp only
    rw [if_neg (by omega), heq]
  | waitedOk =>
    obtain ⟨st', heq, hrest⟩ :=
      acquireConnectionTok_canceled_release true now st hcl hempty
    refine ⟨st', ?_, hrest⟩
    unfold acquireConnection
    dsimp only
    rw [if_neg (by omega), heq]

/-- Witness for C3: `MaxConnections = 4`, a fresh pool, a non-blocking
token grab, constructor success, context cancelled. -/
theorem acquire_canceled_returns_connection_to_pool_witness :
    ∃ st',
      acquireConnection 4 .immediate true true 7 initialPoolState =
        some (.error .ctxCanceled, st') ∧
      st'.canceledAcquireCount = initialPoolState.canceledAcquireCount + 1 ∧
      initialPoolState.nextId ∈ st'.all ∧
      st'.status initialPoolState.nextId = .idle ∧
      initialPoolState.nextId ∈ stackList st'.idleStack ∧
      st'.lastUsed initialPoolState.nextId = 7 ∧
      st'.destroyCount = initialPoolState.destroyCount :=
  acquire_canceled_returns_connection_to_pool 4 7 initialPoolState .immediate
    (by decide) rfl (by decide) (by decide)

theorem acquireConnectionTok_emptyAcquire {waited ctorOk canceled : Bool}
    {now : Nat} {st : PoolState} {r : Nat} {st' : PoolState}
    (h : acquireConnectionTok waited ctorOk canceled now st = (.ok r, st')) :
    (stackList st.idleStack ≠ [] →
      st'.emptyAcquireCount = st.emptyAcquireCount + (if waited then 1 else 0)) ∧
    (stackList st.idleStack = [] →
      st'.emptyAcquireCount = st.emptyAcquireCount + 1) := by
  unfold acquireConnectionTok at h
  by_cases hcl : st.closed
  · rw [if_pos (show ({st with tokens := st.tokens + 1} : PoolState).closed = true
      from hcl)] at h
    simp only [Prod.mk.injEq] at h
    cases h.1
  · rw [if_neg (show ¬({st with tokens := st.tokens + 1} : PoolState).closed = true
      from hcl)] at h
    dsimp only at h
    rcases hpop : mvPop st.idleStack with ⟨oc, s1⟩
    rw [hpop] at h
    cases oc with
    | some c =>
      dsimp only at h
      simp only [Prod.mk.injEq] at h
      constructor
      · intro hne
        rw [← h.2]
      · intro habs
        rw [mvPop_some hpop] at habs
        cases habs
    | none =>
      unfold newConnection at h
      dsimp only at h
      obtain ⟨hempty, hempty'⟩ := mvPop_none hpop
      by_cases hct : ctorOk
      · rw [if_pos hct] at h
        by_cases hcn : canceled
        · rw [if_pos hcn] at h
          simp only [Prod.mk.injEq] at h
          cases h.1
        · rw [if_neg hcn] at h
          simp only [Prod.mk.injEq] at h
          constructor
          · intro hne
            exact absurd hempty hne
          · intro _
            rw [← h.2]
      · rw [if_neg hct] at h
        by_cases hcn : canceled
        · rw [if_pos hcn] at h
          simp only [Prod.mk.injEq] at h
          cases h.1
        · rw [if_neg hcn] at h
          simp only [Prod.mk.injEq] at h
          cases h.1

/-- Claim C6 counterexample: the claim states that a successful
`acquireConnection` increments the empty-acquires counter exactly when the
caller had to block on the semaphore, in both the idle-pop and the
create-and-initialise cases.  This is false: on a fresh pool the initial
`TryAcquire` succeeds (no blocking) and the create path still increments
the counter unconditionally. -/
theorem acquire_emptyAcquire_iff_waited_false :
    ¬ (∀ (ms : Nat) (sem : SemOutcome) (ctorOk canceled : Bool) (now : Nat)
        (st : PoolState) (r : Nat) (st' : PoolState),
        acquireConnection ms sem ctorOk canceled now st = some (.ok r, st') →
        (st'.emptyAcquireCount = st.emptyAcquireCount + 1 ↔ sem = .waitedOk)) := by
  intro h
  have h2 := h 4 .immediate true false 0 initialPoolState 0 _ rfl
  exact absurd (h2.mp (by decide)) (by decide)

/-- Claim C6 amended: for every successful `acquireConnection`, when an
idle record is popped the empty-acquires counter is incremented iff the
caller had to block on the semaphore; when a new record is created and
initialised the counter is incremented unconditionally. -/
theorem acquire_emptyAcquire_spec {ms : Nat} {sem : SemOutcome}
    {ctorOk canceled : Bool} {now : Nat} {st : PoolState} {r : Nat}
    {st' : PoolState}
    (h : acquireConnection ms sem ctorOk canceled now st = some (.ok r, st')) :
    (stackList st.idleStack ≠ [] →
      st'.emptyAcquireCount = st.emptyAcquireCount +
        (if sem = SemOutcome.waitedOk then 1 else 0)) ∧
    (stackList st.idleStack = [] →
      st'.emptyAcquireCount = st.emptyAcquireCount + 1) := by
  cases sem with
  | waitedCanceled =>
    simp only [acquireConnection, Option.some.injEq, Prod.mk.injEq] at h
    cases h.1
  | immediate =>
    simp only [acquireConnection] at h
    by_cases h1 : ms ≤ st.tokens
    · rw [if_pos h1] at h
      cases h
    · rw [if_neg h1] at h
      simp only [Option.some.injEq] at h
      have := acquireConnectionTok_emptyAcquire h
      simpa using this
  | waitedOk =>
    simp only [acquireConnection] at h
    by_cases h1 : ms ≤ st.tokens
    · rw [if_pos h1] at h
      cases h
    · rw [if_neg h1] at h
      simp only [Option.some.injEq] at h
      have := acquireConnectionTok_emptyAcquire h
      simpa using this

/-- Witness for the amended C6: a successful non-blocking create-path
acquire on a fresh pool increments the counter. -/
theorem acquire_emptyAcquire_spec_witness :
    (stackList initialPoolState.idleStack ≠ [] →
      (1 : Nat) = initialPoolState.emptyAcquireCount +
        (if SemOutcome.immediate = SemOutcome.waitedOk then 1 else 0)) ∧
    (stackList initialPoolState.idleStack = [] →
      (1 : Nat) = initialPoolState.emptyAcquireCount + 1) :=
  @acquire_emptyAcquire_spec 4 .immediate true false 0 initialPoolState 0
      { all := [0]
        idleStack := .single []
        status := setFun (setFun (fun _ => Status.initialising) 0 .initialising) 0
          .acquired
        lastUsed := setFun (fun _ => 0) 0 0
        tokens := 1
        closed := false
        nextId := 1
        destructWG := 1
        acquireCount := 1
        emptyAcquireCount := 1
        canceledAcquireCount := 0
        destroyCount := fun _ => 0 } rfl

/-- Witness for C4: the single idle record created by one successful
`createConnection` on a fresh pool with `MaxConnections = 4`. -/
theorem reachable_idle_iff_on_stack_witness :
    ((createConnection 4 0 true initialPoolState).2.status 0 = .idle ↔
      (stackList (createConnection 4 0 true initialPoolState).2.idleStack).count 0 = 1) ∧
    ((createConnection 4 0 true initialPoolState).2.status 0 = .acquired →
      0 ∉ stackList (createConnection 4 0 true initialPoolState).2.idleStack) :=
  reachable_idle_iff_on_stack
    (Relation.ReflTransGen.single (Step.createConn 0 true initialPoolState)) 0
    (by decide)

/-- Claim C9: `removeFromConnections` leaves the slice unchanged when `c`
is absent; when `c` is present it removes exactly one occurrence — the
first, located by the scan — leaving the multiset of `v` minus one `c`,
with the last element moved into the removed slot and the length reduced
by one. -/
theorem removeFromConnections_spec (v : List Nat) (c : Nat) :
    (c ∉ v → removeFromConnections v c = v) ∧
    (c ∈ v →
      (removeFromConnections v c).length = v.length - 1 ∧
      List.Perm (removeFromConnections v c) (v.erase c) ∧
      ∃ i, v.findIdx? (fun e => e = c) = some i ∧
        removeFromConnections v c = (v.set i (v.getLastD 0)).dropLast) := by
  refine ⟨removeFromConnections_of_not_mem, ?_⟩
  intro hc
  refine ⟨removeFromConnections_length hc, removeFromConnections_perm_erase hc, ?_⟩
  obtain ⟨i, hi⟩ := findIdx?_exists_of_mem hc
  exact ⟨i, hi, removeFromConnections_eq_of_findIdx hi⟩

/-- Witness for C9: removing 7 from `[5, 7, 9]` moves the last element 9
into slot 1. -/
theorem removeFromConnections_spec_witness :
    (removeFromConnections [5, 7, 9] 7).length = [5, 7, 9].length - 1 ∧
    List.Perm (removeFromConnections [5, 7, 9] 7) ([5, 7, 9].erase 7) ∧
    ∃ i, [5, 7, 9].findIdx? (fun e => e = 7) = some i ∧
      removeFromConnections [5, 7, 9] 7 =
        ([5, 7, 9].set i ([5, 7, 9].getLastD 0)).dropLast :=
  (removeFromConnections_spec [5, 7, 9] 7).2 (by decide)

theorem defaultHook_defaultHook (x : Option Unit) :
    defaultHook (defaultHook x) = defaultHook x := by
  cases x <;> rfl

/-- Claim C10: `Config.ValidateAndDefault` is idempotent — if a first call
succeeds (returning the defaulted config `c'`), a second call on `c'`
succeeds and changes no field. -/
theorem validateAndDefault_idempotent (c c' : Config)
    (h : c.validateAndDefault = .ok c') : c'.validateAndDefault = .ok c' := by
  unfold Config.validateAndDefault at h
  cases hcc : c.connectionConfig with
  | none =>
    rw [hcc] at h
    cases h
  | some cc =>
    rw [hcc] at h
    dsimp only at h
    cases hv : cc.validateAndDefault with
    | some e =>
      rw [hv] at h
      cases h
    | none =>
      rw [hv] at h
      dsimp only at h
      simp only [Except.ok.injEq] at h
      subst h
      unfold Config.validateAndDefault
      dsimp only
      rw [hv]
      dsimp only
      simp only [Except.ok.injEq, Config.mk.injEq]
      refine ⟨?_, ?_, ?_, ?_, ?_, ?_, ?_, ?_, ?_, ?_, ?_, ?_⟩
      all_goals first
        | exact trivial
        | exact defaultHook_defaultHook _
        | (try simp only [timeHour, timeMinute30, timeMinute]
           split_ifs <;> omega)

/-- Witness for C10: a minimal config (only the connection config set)
whose first `ValidateAndDefault` fills in every default; the second call
returns it unchanged. -/
theorem validateAndDefault_idempotent_witness :
    Config.validateAndDefault
      { connectionConfig := some { driverName := "pg", url := "u" }
        beforeConnect := some ()
        afterConnect := some ()
        beforeAcquire := some ()
        afterRelease := some ()
        beforeClose := some ()
        maxConnectionLifetime := timeHour
        maxConnectionLifetimeJitter := 0
        maxConnectionIdleTime := timeMinute30
        maxConnections := 4
        minConnections := 0
        healthCheckPeriod := timeMinute } =
    .ok
      { connectionConfig := some { driverName := "pg", url := "u" }
        beforeConnect := some ()
        afterConnect := some ()
        beforeAcquire := some ()
        afterRelease := some ()
        beforeClose := some ()
        maxConnectionLifetime := timeHour
        maxConnectionLifetimeJitter := 0
        maxConnectionIdleTime := timeMinute30
        maxConnections := 4
        minConnections := 0
        healthCheckPeriod := timeMinute } :=
  validateAndDefault_idempotent
    { connectionConfig := some { driverName := "pg", url := "u" }
      beforeConnect := none
      afterConnect := none
      beforeAcquire := none
      afterRelease := none
      beforeClose := none
      maxConnectionLifetime := 0
      maxConnectionLifetimeJitter := 0
      maxConnectionIdleTime := 0
      maxConnections := 0
      minConnections := 0
      healthCheckPeriod := 0 } _ rfl

end AlphaSql
